import Mathlib

/-!
Shallow embedding of the haystack-qdrant-rag repository's retrieval-fusion,
chunking, prompt-assembly and orchestration logic, with theorems settling
the specification's claims about it.

The repository's four Python files (src/app.py, src/demo.py,
src/index_pdf.py, src/query_pdf.py) are glue around Haystack components;
where the deciding behaviour lives in library components configured by the
repository (DocumentJoiner, DocumentSplitter, PromptBuilder rendering,
QdrantDocumentStore), the corresponding Lean definition is modelled from
the specification's contract, as noted in its doc comment.
-/

/-- Modelled from the spec: the fusion semantics of the hybrid
`DocumentJoiner(join_mode="concatenate", top_k=5)` configured at
src/demo.py line 52; the joiner's code lives in the Haystack library, not
in this repository.  Spec section 4.2 (concatenate-with-dedup-boost):
records appearing in both branch result lists are kept once and ranked
above records appearing in only one list; within each tier relative order
follows the originating branch's rank, vector branch first; `top_k`
truncates the final fused list after dedup.  Branch results are ranked
lists of record ids (scores are not consulted by this policy). -/
def fuse (v k : List Nat) (topk : Nat) : List Nat :=
  ((v.filter fun a => decide (a ∈ k)) ++
   (v.filter fun a => decide (a ∉ k)) ++
   (k.filter fun a => decide (a ∉ v))).take topk

/-- The fused list before the `top_k` cap is applied. -/
def fuseAll (v k : List Nat) : List Nat :=
  (v.filter fun a => decide (a ∈ k)) ++
  (v.filter fun a => decide (a ∉ k)) ++
  (k.filter fun a => decide (a ∉ v))

theorem fuse_eq_take_fuseAll (v k : List Nat) (n : Nat) :
    fuse v k n = (fuseAll v k).take n := rfl

theorem mem_fuseAll_tier0 {v k : List Nat} {a : Nat}
    (h : a ∈ v.filter fun a => decide (a ∈ k)) : a ∈ v ∧ a ∈ k := by
  simpa using (List.mem_filter.1 h)

theorem mem_fuseAll_tier1 {v k : List Nat} {a : Nat}
    (h : a ∈ v.filter fun a => decide (a ∉ k)) : a ∈ v ∧ a ∉ k := by
  simpa using (List.mem_filter.1 h)

theorem mem_fuseAll_tier2 {v k : List Nat} {a : Nat}
    (h : a ∈ k.filter fun a => decide (a ∉ v)) : a ∈ k ∧ a ∉ v := by
  have := List.mem_filter.1 h
  simpa [and_comm] using this

theorem fuseAll_nodup {v k : List Nat} (hv : v.Nodup) (hk : k.Nodup) :
    (fuseAll v k).Nodup := by
  unfold fuseAll
  rw [List.append_assoc, List.nodup_append, List.nodup_append]
  refine ⟨hv.filter _, ⟨hv.filter _, hk.filter _, ?_⟩, ?_⟩
  · intro a ha hb
    exact (mem_fuseAll_tier2 hb).2 (mem_fuseAll_tier1 ha).1
  · intro a ha hb
    have h0 := mem_fuseAll_tier0 ha
    rcases List.mem_append.1 hb with hb | hb
    · exact (mem_fuseAll_tier1 hb).2 h0.2
    · exact (mem_fuseAll_tier2 hb).2 h0.1

theorem fuseAll_pairwise_tier {v k : List Nat} :
    (fuseAll v k).Pairwise fun a b => (b ∈ v ∧ b ∈ k) → (a ∈ v ∧ a ∈ k) := by
  unfold fuseAll
  rw [List.append_assoc, List.pairwise_append]
  refine ⟨?_, ?_, ?_⟩
  · exact List.pairwise_of_forall_mem_list fun a ha b _ _ => mem_fuseAll_tier0 ha
  · rw [List.pairwise_append]
    refine ⟨?_, ?_, ?_⟩
    · exact List.pairwise_of_forall_mem_list fun a _ b hb hbk =>
        absurd hbk.2 (mem_fuseAll_tier1 hb).2
    · exact List.pairwise_of_forall_mem_list fun a _ b hb hbk =>
        absurd hbk.1 (mem_fuseAll_tier2 hb).2
    · intro a _ b hb hbk
      exact absurd hbk.1 (mem_fuseAll_tier2 hb).2
  · intro a ha b _ _
    exact mem_fuseAll_tier0 ha

theorem fuseAll_pairwise_branch {v k : List Nat} :
    (fuseAll v k).Pairwise fun a b => (b ∈ v ∧ b ∉ k) → a ∈ v := by
  unfold fuseAll
  rw [List.append_assoc, List.pairwise_append]
  refine ⟨?_, ?_, ?_⟩
  · exact List.pairwise_of_forall_mem_list fun a ha b _ _ => (mem_fuseAll_tier0 ha).1
  · rw [List.pairwise_append]
    refine ⟨?_, ?_, ?_⟩
    · exact List.pairwise_of_forall_mem_list fun a ha b _ _ => (mem_fuseAll_tier1 ha).1
    · exact List.pairwise_of_forall_mem_list fun a _ b hb hbk =>
        absurd hbk.1 (mem_fuseAll_tier2 hb).2
    · intro a _ b hb hbk
      exact absurd hbk.1 (mem_fuseAll_tier2 hb).2
  · intro a ha b _ _
    exact (mem_fuseAll_tier0 ha).1

theorem fuseAll_filter_both (v k : List Nat) :
    ((fuseAll v k).filter fun a => decide (a ∈ v ∧ a ∈ k)).Sublist v := by
  unfold fuseAll
  rw [List.filter_append, List.filter_append]
  have h0 : ((v.filter fun a => decide (a ∈ k)).filter
      fun a => decide (a ∈ v ∧ a ∈ k)) = v.filter fun a => decide (a ∈ k) := by
    rw [List.filter_eq_self]
    intro a ha
    have := mem_fuseAll_tier0 ha
    simpa using this
  have h1 : ((v.filter fun a => decide (a ∉ k)).filter
      fun a => decide (a ∈ v ∧ a ∈ k)) = [] := by
    rw [List.filter_eq_nil_iff]
    intro a ha
    have := mem_fuseAll_tier1 ha
    simp [this.2]
  have h2 : ((k.filter fun a => decide (a ∉ v)).filter
      fun a => decide (a ∈ v ∧ a ∈ k)) = [] := by
    rw [List.filter_eq_nil_iff]
    intro a ha
    have := mem_fuseAll_tier2 ha
    simp [this.2]
  simp only [h0, h1, h2, List.append_nil, List.nil_append]
  exact List.filter_sublist v

theorem fuseAll_filter_veconly (v k : List Nat) :
    ((fuseAll v k).filter fun a => decide (a ∈ v ∧ a ∉ k)).Sublist v := by
  unfold fuseAll
  rw [List.filter_append, List.filter_append]
  have h0 : ((v.filter fun a => decide (a ∈ k)).filter
      fun a => decide (a ∈ v ∧ a ∉ k)) = [] := by
    rw [List.filter_eq_nil_iff]
    intro a ha
    have := mem_fuseAll_tier0 ha
    simp [this.2]
  have h1 : ((v.filter fun a => decide (a ∉ k)).filter
      fun a => decide (a ∈ v ∧ a ∉ k)) = v.filter fun a => decide (a ∉ k) := by
    rw [List.filter_eq_self]
    intro a ha
    have := mem_fuseAll_tier1 ha
    simpa using this
  have h2 : ((k.filter fun a => decide (a ∉ v)).filter
      fun a => decide (a ∈ v ∧ a ∉ k)) = [] := by
    rw [List.filter_eq_nil_iff]
    intro a ha
    have := mem_fuseAll_tier2 ha
    simp [this.2]
  simp only [h0, h1, h2, List.append_nil, List.nil_append]
  exact List.filter_sublist v

theorem fuseAll_filter_kwonly (v k : List Nat) :
    ((fuseAll v k).filter fun a => decide (a ∉ v)).Sublist k := by
  unfold fuseAll
  rw [List.filter_append, List.filter_append]
  have h0 : ((v.filter fun a => decide (a ∈ k)).filter
      fun a => decide (a ∉ v)) = [] := by
    rw [List.filter_eq_nil_iff]
    intro a ha
    have := mem_fuseAll_tier0 ha
    simp [this.1]
  have h1 : ((v.filter fun a => decide (a ∉ k)).filter
      fun a => decide (a ∉ v)) = [] := by
    rw [List.filter_eq_nil_iff]
    intro a ha
    have := mem_fuseAll_tier1 ha
    simp [this.1]
  have h2 : ((k.filter fun a => decide (a ∉ v)).filter
      fun a => decide (a ∉ v)) = k.filter fun a => decide (a ∉ v) := by
    rw [List.filter_eq_self]
    intro a ha
    have := mem_fuseAll_tier2 ha
    simpa using this.2
  simp only [h0, h1, h2, List.append_nil, List.nil_append]
  exact List.filter_sublist k

/-- C1: the fused output contains each record id at most once; every record
present in both input branches is ranked strictly above every record present
in only one branch; and within each tier relative order follows the
originating branch's rank, with vector-branch records before keyword-branch
records (stated as: the both-tier and the vector-only records of the output
are order-preserving subsequences of the vector branch, the keyword-only
records an order-preserving subsequence of the keyword branch, and no
vector-branch record is preceded by a keyword-only record). -/
theorem fuse_dedup_boost_order (v k : List Nat) (n : Nat)
    (hv : v.Nodup) (hk : k.Nodup) :
    (fuse v k n).Nodup ∧
    ((fuse v k n).Pairwise fun a b => (b ∈ v ∧ b ∈ k) → (a ∈ v ∧ a ∈ k)) ∧
    ((fuse v k n).Pairwise fun a b => (b ∈ v ∧ b ∉ k) → a ∈ v) ∧
    ((fuse v k n).filter fun a => decide (a ∈ v ∧ a ∈ k)).Sublist v ∧
    ((fuse v k n).filter fun a => decide (a ∈ v ∧ a ∉ k)).Sublist v ∧
    ((fuse v k n).filter fun a => decide (a ∉ v)).Sublist k := by
  have hsub : (fuse v k n).Sublist (fuseAll v k) := by
    rw [fuse_eq_take_fuseAll]
    exact List.take_sublist n (fuseAll v k)
  refine ⟨hsub.nodup (fuseAll_nodup hv hk),
    fuseAll_pairwise_tier.sublist hsub,
    fuseAll_pairwise_branch.sublist hsub,
    (hsub.filter _).trans (fuseAll_filter_both v k),
    (hsub.filter _).trans (fuseAll_filter_veconly v k),
    (hsub.filter _).trans (fuseAll_filter_kwonly v k)⟩

/-- Witness for C1 at the spec's own scenario (ids: A = 0, B = 1, C = 2). -/
theorem fuse_dedup_boost_order_witness :
    (fuse [0, 1] [1, 2] 5).Nodup ∧
    ((fuse [0, 1] [1, 2] 5).Pairwise fun a b =>
      (b ∈ [0, 1] ∧ b ∈ [1, 2]) → (a ∈ [0, 1] ∧ a ∈ [1, 2])) ∧
    ((fuse [0, 1] [1, 2] 5).Pairwise fun a b =>
      (b ∈ [0, 1] ∧ b ∉ [1, 2]) → a ∈ [0, 1]) ∧
    ((fuse [0, 1] [1, 2] 5).filter fun a =>
      decide (a ∈ [0, 1] ∧ a ∈ [1, 2])).Sublist [0, 1] ∧
    ((fuse [0, 1] [1, 2] 5).filter fun a =>
      decide (a ∈ [0, 1] ∧ a ∉ [1, 2])).Sublist [0, 1] ∧
    ((fuse [0, 1] [1, 2] 5).filter fun a => decide (a ∉ [0, 1])).Sublist [1, 2] :=
  fuse_dedup_boost_order [0, 1] [1, 2] 5 (by decide) (by decide)

/-- C2: the spec's scenario — vector branch [A(0.9), B(0.7)], keyword branch
[B(12.0), C(9.0)], top_k = 5, with ids A = 0, B = 1, C = 2 (the
concatenate-with-dedup-boost policy does not consult scores) — fuses to
exactly [B, A, C]. -/
theorem fuse_scenario_bac : fuse [0, 1] [1, 2] 5 = [1, 0, 2] := rfl

/-- C6: dedup happens before the `top_k` cap: every record of either branch
is present in the untruncated fused list, a record of either branch missing
from the fused output means the output is saturated at exactly `top_k`
records (so only the final cap can exclude it), and the fused output
contains no record from outside the two branches. -/
theorem fuse_dedup_before_cap (v k : List Nat) (n : Nat) :
    (∀ a, a ∈ v ∨ a ∈ k → a ∈ fuseAll v k) ∧
    (∀ a, a ∈ v ∨ a ∈ k → a ∉ fuse v k n → (fuse v k n).length = n) ∧
    (∀ a, a ∈ fuse v k n → a ∈ v ∨ a ∈ k) := by
  have hmemAll : ∀ a, a ∈ v ∨ a ∈ k → a ∈ fuseAll v k := by
    intro a ha
    unfold fuseAll
    by_cases hav : a ∈ v
    · by_cases hak : a ∈ k
      · exact List.mem_append.2 (Or.inl (List.mem_append.2 (Or.inl
          (List.mem_filter.2 ⟨hav, by simpa using hak⟩))))
      · exact List.mem_append.2 (Or.inl (List.mem_append.2 (Or.inr
          (List.mem_filter.2 ⟨hav, by simpa using hak⟩))))
    · have hak : a ∈ k := ha.resolve_left hav
      exact List.mem_append.2 (Or.inr (List.mem_filter.2 ⟨hak, by simpa using hav⟩))
  refine ⟨hmemAll, ?_, ?_⟩
  · intro a ha hnot
    rw [fuse_eq_take_fuseAll] at hnot ⊢
    rw [List.length_take]
    rcases Nat.le_total n (fuseAll v k).length with hle | hle
    · exact Nat.min_eq_left hle
    · exfalso
      exact hnot (by rw [List.take_of_length_le hle]; exact hmemAll a ha)
  · intro a ha
    have : a ∈ fuseAll v k := (List.take_sublist n _).mem ha
    unfold fuseAll at this
    rcases List.mem_append.1 this with h | h
    · rcases List.mem_append.1 h with h | h
      · exact Or.inl (mem_fuseAll_tier0 h).1
      · exact Or.inl (mem_fuseAll_tier1 h).1
    · exact Or.inr (mem_fuseAll_tier2 h).1

/-- Witness for C6: with vector branch [0, 1], keyword branch [2] and
top_k = 2, the record 2 is kept in the untruncated fused list, and its
absence from the output coincides with the output being saturated at 2. -/
theorem fuse_dedup_before_cap_witness :
    2 ∈ fuseAll [0, 1] [2] ∧ (fuse [0, 1] [2] 2).length = 2 :=
  ⟨(fuse_dedup_before_cap [0, 1] [2] 2).1 2 (Or.inr (by decide)),
   (fuse_dedup_before_cap [0, 1] [2] 2).2.1 2 (Or.inr (by decide)) (by decide)⟩

/-- Modelled from the spec: the word-window chunker behind
`DocumentSplitter(split_by="word", split_length=250, split_overlap=50)`
configured at src/index_pdf.py lines 45-50 and src/app.py line 49; the
splitter's code lives in the Haystack library, not in this repository.
Spec section 4.1: fixed-size word windows of `len` words, each sharing
`ov` words with the previous chunk (so consecutive windows start `len - ov`
words apart); a document of at most `len` words yields exactly one chunk.
Recursion fuel makes termination explicit: `none` means the fuel ran out
(the "non-terminating split" error condition). -/
def chunkFuel (len ov : Nat) : Nat → List String → Option (List (List String))
  | 0, _ => none
  | fuel + 1, ws =>
    if ws.length ≤ len then some [ws]
    else (chunkFuel len ov fuel (ws.drop (len - ov))).map fun cs => ws.take len :: cs

/-- The chunker run with fuel `ws.length + 1`, which suffices whenever
`ov < len`; on fuel exhaustion it returns no chunks. -/
def chunk (ws : List String) (len ov : Nat) : List (List String) :=
  (chunkFuel len ov (ws.length + 1) ws).getD []

theorem chunkFuel_le {len ov fuel : Nat} {ws : List String}
    (h : ws.length ≤ len) : chunkFuel len ov (fuel + 1) ws = some [ws] := by
  simp [chunkFuel, h]

theorem chunkFuel_gt {len ov fuel : Nat} {ws : List String}
    (h : ¬ ws.length ≤ len) :
    chunkFuel len ov (fuel + 1) ws =
      (chunkFuel len ov fuel (ws.drop (len - ov))).map fun cs => ws.take len :: cs := by
  simp [chunkFuel, h]

theorem chunkFuel_sufficient {len ov : Nat} (hlt : ov < len) :
    ∀ fuel (ws : List String), ws.length < fuel →
      ∃ cs, chunkFuel len ov fuel ws = some cs := by
  intro fuel
  induction fuel with
  | zero => intro ws h; exact absurd h (Nat.not_lt_zero _)
  | succ fuel ih =>
    intro ws hfuel
    by_cases hle : ws.length ≤ len
    · exact ⟨[ws], chunkFuel_le hle⟩
    · have hpos : 0 < len - ov := Nat.sub_pos_of_lt hlt
      have hlen : (ws.drop (len - ov)).length < fuel := by
        rw [List.length_drop]
        have hws : len < ws.length := Nat.lt_of_not_le hle
        have h1 : ws.length - (len - ov) < ws.length :=
          Nat.sub_lt (Nat.lt_of_le_of_lt (Nat.zero_le _) hws) hpos
        exact Nat.lt_of_lt_of_le h1 (Nat.le_of_lt_succ hfuel)
      obtain ⟨cs, hcs⟩ := ih (ws.drop (len - ov)) hlen
      exact ⟨ws.take len :: cs, by rw [chunkFuel_gt hle, hcs]; rfl⟩

/-- C7: for positive `split_length` and `split_overlap` with
`split_overlap < split_length`, the chunker terminates on every document:
the recursion completes within `ws.length + 1` steps and produces a finite
chunk sequence (the "non-terminating split" error condition is
unreachable under this precondition). -/
theorem chunk_terminating (ws : List String) (len ov : Nat)
    (hlen : 0 < len) (hov : 0 < ov) (hlt : ov < len) :
    ∃ cs, chunkFuel len ov (ws.length + 1) ws = some cs ∧ chunk ws len ov = cs := by
  obtain ⟨cs, hcs⟩ := chunkFuel_sufficient hlt (ws.length + 1) ws (Nat.lt_succ_self _)
  exact ⟨cs, hcs, by rw [chunk, hcs]; rfl⟩

/-- Witness for C7 on a concrete 5-word document with len 2, ov 1. -/
theorem chunk_terminating_witness :
    ∃ cs, chunkFuel 2 1 ((List.replicate 5 "w").length + 1) (List.replicate 5 "w") = some cs ∧
      chunk (List.replicate 5 "w") 2 1 = cs :=
  chunk_terminating (List.replicate 5 "w") 2 1 (by decide) (by decide) (by decide)

/-- C4: chunking a 600-word document with `split_length = 250` and
`split_overlap = 50` (no sentence-boundary snapping in the model) yields
exactly 3 chunks covering the word spans [0:250], [200:450] and [400:600],
in original document order. -/
theorem chunk_600_words (ws : List String) (h : ws.length = 600) :
    chunk ws 250 50 = [ws.take 250, (ws.drop 200).take 250, ws.drop 400] := by
  have h1 : ¬ ws.length ≤ 250 := by omega
  have hd1 : (ws.drop 200).length = 400 := by rw [List.length_drop, h]
  have h2 : ¬ (ws.drop 200).length ≤ 250 := by omega
  have hd2 : ((ws.drop 200).drop 200).length = 200 := by
    rw [List.length_drop, hd1]
  have h3 : ((ws.drop 200).drop 200).length ≤ 250 := by omega
  rw [chunk, h]
  rw [show (600 : Nat) + 1 = 600 + 1 from rfl, chunkFuel_gt h1]
  rw [show (600 : Nat) = 599 + 1 from rfl, chunkFuel_gt h2]
  rw [show (599 : Nat) = 598 + 1 from rfl, chunkFuel_le h3]
  simp only [Option.map_some', Option.getD_some]
  rw [List.drop_drop]

/-- Witness for C4 on a concrete 600-word document. -/
theorem chunk_600_words_witness :
    chunk (List.replicate 600 "w") 250 50 =
      [(List.replicate 600 "w").take 250,
       ((List.replicate 600 "w").drop 200).take 250,
       (List.replicate 600 "w").drop 400] :=
  chunk_600_words (List.replicate 600 "w") (by rw [List.length_replicate])

theorem chunkFuel_head_take {len ov fuel : Nat} {ws : List String}
    {cs : List (List String)} (hov : ov ≤ len)
    (h : chunkFuel len ov fuel ws = some cs) :
    ∃ b t, cs = b :: t ∧ b.take ov = ws.take ov := by
  match fuel with
  | 0 => exact absurd h (by simp [chunkFuel])
  | fuel + 1 =>
    by_cases hle : ws.length ≤ len
    · rw [chunkFuel_le hle] at h
      exact ⟨ws, [], by simpa using h.symm, rfl⟩
    · rw [chunkFuel_gt hle] at h
      rcases hmap : chunkFuel len ov fuel (ws.drop (len - ov)) with _ | cs'
      · rw [hmap] at h; exact absurd h (by simp)
      · rw [hmap] at h
        refine ⟨ws.take len, cs', by simpa using h.symm, ?_⟩
        rw [List.take_take, Nat.min_eq_left hov]

theorem chunkFuel_chain {len ov : Nat} (hov : ov < len) :
    ∀ fuel (ws : List String) (cs : List (List String)),
      chunkFuel len ov fuel ws = some cs →
      cs.Chain' fun a b => a.drop (a.length - ov) = b.take ov := by
  intro fuel
  induction fuel with
  | zero => intro ws cs h; exact absurd h (by simp [chunkFuel])
  | succ fuel ih =>
    intro ws cs h
    by_cases hle : ws.length ≤ len
    · rw [chunkFuel_le hle] at h
      obtain rfl : cs = [ws] := by simpa using h.symm
      exact List.chain'_singleton ws
    · rw [chunkFuel_gt hle] at h
      rcases hmap : chunkFuel len ov fuel (ws.drop (len - ov)) with _ | cs'
      · rw [hmap] at h; exact absurd h (by simp)
      · rw [hmap] at h
        obtain rfl : cs = ws.take len :: cs' := by simpa using h.symm
        rw [List.chain'_cons']
        refine ⟨?_, ih _ _ hmap⟩
        intro y hy
        obtain ⟨b, t, rfl, hbt⟩ := chunkFuel_head_take (Nat.le_of_lt hov) hmap
        simp only [List.head?_cons, Option.mem_def, Option.some_inj] at hy
        subst hy
        rw [hbt]
        have hlen : (ws.take len).length = len := by
          rw [List.length_take]
          exact Nat.min_eq_left (Nat.le_of_not_le hle)
        rw [hlen, List.drop_take, Nat.sub_sub_self (Nat.le_of_lt hov)]

/-- C5: for every document and every adjacent pair of chunks
(c_i, c_{i+1}) produced by the chunker (sentence-boundary snapping absent
from the model), the trailing `split_overlap` words of c_i equal the
leading `split_overlap` words of c_{i+1}. -/
theorem chunk_overlap_invariant (ws : List String) (len ov : Nat)
    (hov : ov < len) :
    (chunk ws len ov).Chain' fun a b => a.drop (a.length - ov) = b.take ov := by
  rcases hres : chunkFuel len ov (ws.length + 1) ws with _ | cs
  · rw [chunk, hres]
    exact List.chain'_nil
  · rw [chunk, hres]
    exact chunkFuel_chain hov (ws.length + 1) ws cs hres

/-- Witness for C5 on a concrete 5-word document with len 2, ov 1. -/
theorem chunk_overlap_invariant_witness :
    (chunk (List.replicate 5 "w") 2 1).Chain'
      fun a b => a.drop (a.length - 1) = b.take 1 :=
  chunk_overlap_invariant (List.replicate 5 "w") 2 1 (by decide)

/-- Modelled from the spec: the rendering of the prompt template at
src/demo.py lines 55-64 (the Jinja engine lives in the Haystack
PromptBuilder, not in this repository).  Spec section 4.3: each record's
text is rendered into a fixed template slot preserving fusion order, and
the question is inserted verbatim into its own slot. -/
def assemble (docs : List String) (q : String) : String :=
  "\nAnswer the question based ONLY on the following [Context].\n[Context]:\n" ++
  String.join (docs.map fun d => "\n    " ++ d ++ "\n") ++
  "\n\nQuestion: " ++ q ++ "\nAnswer:\n"

/-- C3: fusing with one empty branch never fails and returns exactly the
(deduplicated, capped) results of the non-empty branch; fusing two empty
branches yields the empty fused context, and the prompt assembled from it
still contains the question verbatim, preceded by the instruction naming
[Context] and the empty [Context] slot — the explicit signal that no
context was retrieved — rather than omitting the question. -/
theorem fuse_empty_branch_behaviour (v k : List Nat) (n : Nat) (q : String)
    (hv : v.Nodup) (hk : k.Nodup) :
    fuse [] k n = k.take n ∧
    fuse v [] n = v.take n ∧
    fuse [] [] n = [] ∧
    assemble [] q =
      "\nAnswer the question based ONLY on the following [Context].\n[Context]:\n" ++
      "\n\nQuestion: " ++ q ++ "\nAnswer:\n" := by
  refine ⟨?_, ?_, ?_, ?_⟩
  · have hfilter : (k.filter fun a => decide (a ∉ ([] : List Nat))) = k := by
      rw [List.filter_eq_self]
      intro a _
      simp
    rw [fuse, hfilter]
    simp
  · have hfilter1 : (v.filter fun a => decide (a ∈ ([] : List Nat))) = [] := by
      rw [List.filter_eq_nil_iff]
      intro a _
      simp
    have hfilter2 : (v.filter fun a => decide (a ∉ ([] : List Nat))) = v := by
      rw [List.filter_eq_self]
      intro a _
      simp
    rw [fuse, hfilter1, hfilter2]
    simp
  · rw [fuse]
    simp
  · rw [assemble]
    simp [String.join]

/-- Witness for C3 at concrete branch lists and question. -/
theorem fuse_empty_branch_behaviour_witness :
    fuse [] [7, 8] 1 = [7, 8].take 1 ∧
    fuse [7, 8] [] 1 = [7, 8].take 1 ∧
    fuse [] [] 1 = [] ∧
    assemble [] "why?" =
      "\nAnswer the question based ONLY on the following [Context].\n[Context]:\n" ++
      "\n\nQuestion: " ++ "why?" ++ "\nAnswer:\n" :=
  fuse_empty_branch_behaviour [7, 8] [7, 8] 1 "why?" (by decide) (by decide)

/-- One turn of the chat transcript held in `st.session_state.messages`
(src/app.py lines 24-25, 120-142). -/
structure Turn where
  role : String
  content : String
deriving DecidableEq, Repr

/-- The chat-input handler of src/app.py lines 125-142: the user turn is
appended, then the RAG pipeline runs; the assistant turn is appended only
after the pipeline returns a reply.  The pipeline call is modelled as an
`Except` value: `Except.error` stands for an exception raised inside
embedding, retrieval or generation, which aborts the Streamlit script run
before the assistant append at line 142 executes. -/
def handlePrompt (msgs : List Turn) (p : String)
    (pipelineResult : Except String String) : List Turn :=
  let m1 := msgs ++ [⟨"user", p⟩]
  match pipelineResult with
  | .error _ => m1
  | .ok resp => m1 ++ [⟨"assistant", resp⟩]

/-- C8: when the query path fails, the history accumulated before the
question survives unchanged as an initial segment and no assistant turn is
added (the assistant turns of the transcript are exactly those already
present); an assistant turn appears only when the pipeline returns, and it
carries the generated answer as the final turn. -/
theorem chat_error_preserves_history (msgs : List Turn) (p : String)
    (r : Except String String) :
    (∃ t, handlePrompt msgs p r = msgs ++ t) ∧
    (∀ e, r = .error e →
      ((handlePrompt msgs p r).filter fun t => decide (t.role = "assistant")) =
        msgs.filter fun t => decide (t.role = "assistant")) ∧
    (∀ a, r = .ok a →
      (handlePrompt msgs p r).getLast? = some ⟨"assistant", a⟩) := by
  refine ⟨?_, ?_, ?_⟩
  · rcases r with e | a
    · exact ⟨[⟨"user", p⟩], rfl⟩
    · exact ⟨[⟨"user", p⟩, ⟨"assistant", a⟩], by simp [handlePrompt]⟩
  · intro e hr
    subst hr
    have hfalse : decide ((Turn.mk "user" p).role = "assistant") = false := rfl
    simp [handlePrompt, List.filter_append, List.filter_cons, hfalse]
  · intro a hr
    subst hr
    simp [handlePrompt, List.getLast?_concat]

/-- Witness for C8: a failing pipeline call adds no assistant turn to an
empty transcript. -/
theorem chat_error_preserves_history_witness :
    ((handlePrompt [] "hi" (.error "GenerationError")).filter
      fun t => decide (t.role = "assistant")) =
      ([] : List Turn).filter fun t => decide (t.role = "assistant") :=
  (chat_error_preserves_history [] "hi" (.error "GenerationError")).2.1
    "GenerationError" rfl

/-- The interactive query loop of src/query_pdf.py lines 52-65, run against
a finite stream of input lines.  `ans` abstracts the query pipeline (the
call at lines 58-61 followed by printing the reply); `ans l` is the answer
printed for line `l`.  The loop quits (Python `break`, exit code 0) when a
line lowercases to the sentinel "q"; exhausting the stream means `input()`
raises EOFError, an abnormal exit, modelled by the Boolean `false`. -/
def loopRun (ans : String → String) : List String → List String × Bool
  | [] => ([], false)
  | l :: ls =>
    if l.toLower = "q" then ([], true)
    else
      let r := loopRun ans ls
      (ans l :: r.1, r.2)

/-- C9: the loop exits normally (exit code 0) exactly when some entered
line is the quit sentinel, and the printed answers are exactly the
pipeline's answers for the lines preceding the first sentinel, in input
order (each answer printed before the next line is read). -/
theorem query_loop_behaviour (ans : String → String) (ls : List String) :
    ((loopRun ans ls).2 = true ↔ ∃ l ∈ ls, l.toLower = "q") ∧
    (loopRun ans ls).1 =
      (ls.takeWhile fun l => decide (¬ l.toLower = "q")).map ans := by
  induction ls with
  | nil => simp [loopRun]
  | cons l ls ih =>
    by_cases h : l.toLower = "q"
    · refine ⟨?_, ?_⟩
      · simp [loopRun, h]
      · rw [loopRun]
        simp [h]
    · refine ⟨?_, ?_⟩
      · rw [loopRun]
        simp only [if_neg h]
        rw [ih.1]
        constructor
        · rintro ⟨x, hx, hxq⟩
          exact ⟨x, List.mem_cons_of_mem l hx, hxq⟩
        · rintro ⟨x, hx, hxq⟩
          rcases List.mem_cons.1 hx with rfl | hx
          · exact absurd hxq h
          · exact ⟨x, hx, hxq⟩
      · rw [loopRun]
        simp only [if_neg h]
        rw [ih.2, List.takeWhile_cons_of_pos (by simpa using h)]
        rfl

/-- Witness for C9: concretely, entering "hello" then "Q" answers "hello"
once and exits normally. -/
theorem query_loop_behaviour_witness :
    ((loopRun (fun l => l ++ "!") ["hello", "Q"]).2 = true ↔
      ∃ l ∈ ["hello", "Q"], l.toLower = "q") ∧
    (loopRun (fun l => l ++ "!") ["hello", "Q"]).1 =
      (["hello", "Q"].takeWhile fun l => decide (¬ l.toLower = "q")).map
        (fun l => l ++ "!") :=
  query_loop_behaviour (fun l => l ++ "!") ["hello", "Q"]

/-- Modelled from the spec: the effect of constructing a
`QdrantDocumentStore` with the `recreate_index` flag (src/index_pdf.py
lines 20-26 and src/app.py lines 32-41; the store's code lives in the
qdrant-haystack integration, not in this repository).  Spec section 3:
indexed records are "deleted only by explicit index reset"; recreating the
index is that reset, while connecting without recreating preserves all
existing records. -/
def initStore (recreate : Bool) (existing : List Nat) : List Nat :=
  if recreate then [] else existing

/-- The `recreate_index=True` argument of src/index_pdf.py line 23. -/
def indexPdfRecreate : Bool := true

/-- The `recreate_index=False` argument of src/app.py line 40. -/
def appRecreate : Bool := false

/-- The standalone ingestion run of src/index_pdf.py: construct the store
(with its recreate flag) and then write the new records. -/
def ingestionRun (existing newRecs : List Nat) : List Nat :=
  initStore indexPdfRecreate existing ++ newRecs

/-- C10: the standalone ingestion script deletes every previously indexed
record before writing — after its run the store holds exactly the newly
written records — whereas the chat application's store construction
preserves every existing record. -/
theorem ingest_resets_app_preserves (existing newRecs : List Nat) :
    (∀ r, r ∈ existing → r ∉ initStore indexPdfRecreate existing) ∧
    ingestionRun existing newRecs = newRecs ∧
    initStore appRecreate existing = existing := by
  refine ⟨?_, ?_, ?_⟩
  · intro r _ hr
    simp [initStore, indexPdfRecreate] at hr
  · rw [ingestionRun, initStore]
    simp [indexPdfRecreate]
  · rw [initStore]
    simp [appRecreate]

/-- Witness for C10: the record 3, present before ingestion, is gone from
the freshly recreated store. -/
theorem ingest_resets_app_preserves_witness :
    3 ∉ initStore indexPdfRecreate [3] :=
  (ingest_resets_app_preserves [3] []).1 3 (by decide)
